import Mathlib

/-!
Shallow embedding of the `recurring` package (temporal-expression composite
model and occurrence search) together with the calendar primitives it consumes
from the `timeutil` collaborator.  Instants are modelled as proleptic-Gregorian
civil dates paired with a time-of-day offset, matching Go `time.Time` in UTC
(which is what the package manipulates: `time.Parse` of a date yields UTC
midnight, `Add(24h)` advances one civil day, `BeginningOfDay` zeroes the
time-of-day).
-/

namespace Recurring

/-- A civil calendar date (proleptic Gregorian), the date part of a Go
`time.Time` in UTC. -/
structure CivDate where
  year : Int
  month : Int
  day : Int
deriving DecidableEq, Repr

/-- A calendar instant: a civil date plus the offset within the day
(nanoseconds in Go; the unit is irrelevant to the model). -/
structure Instant where
  date : CivDate
  tod : Int
deriving DecidableEq, Repr

/-- Gregorian leap-year rule, as Go's `time` package computes it. -/
def isLeap (y : Int) : Bool :=
  y % 4 == 0 && (y % 100 != 0 || y % 400 == 0)

/-- Number of days in a month.  This is the value of
`timeutil.EndOfMonth(t).Day()` in the source: the `timeutil` collaborator is
consumed as a fixed, already-correct primitive (spec section 6), and on a valid
Go time that expression returns the length of the instant's month. -/
def daysInMonth (y m : Int) : Int :=
  if m = 2 then (if isLeap y then 29 else 28)
  else if m = 4 ∨ m = 6 ∨ m = 9 ∨ m = 11 then 30
  else 31

/-- Day of the week of a civil date, 0 = Sunday … 6 = Saturday, as Go's
`t.Weekday()` reports it (Sakamoto's congruence, which agrees with the
proleptic Gregorian calendar for years ≥ 1). -/
def dayOfWeek (d : CivDate) : Int :=
  let y := if d.month < 3 then d.year - 1 else d.year
  let tbl : List Int := [0, 3, 2, 5, 0, 3, 5, 1, 4, 6, 2, 4]
  (y + y / 4 - y / 100 + y / 400 + tbl.getD ((d.month - 1).toNat) 0 + d.day) % 7

/-- The next civil day: the effect of Go's `t.Add(24 * time.Hour)` on the date
part of a UTC time. -/
def nextDate (d : CivDate) : CivDate :=
  if d.day < daysInMonth d.year d.month then ⟨d.year, d.month, d.day + 1⟩
  else if d.month < 12 then ⟨d.year, d.month + 1, 1⟩
  else ⟨d.year + 1, 1, 1⟩

/-- `timeutil.BeginningOfDay`: truncate a UTC time to midnight of its civil
day (the date is kept, the time-of-day is zeroed). -/
def BeginningOfDay (t : Instant) : Instant :=
  ⟨t.date, 0⟩

/-- `t.Add(24 * time.Hour)` on a UTC instant: the date advances one civil
day, the time-of-day offset is unchanged. -/
def addDay (t : Instant) : Instant :=
  ⟨nextDate t.date, t.tod⟩

/-- The temporal-expression composite tree of `recurring.go`: leaf predicates,
range predicates and the `Or`/`And`/`Not` combinators.  (`Week`, which no
claim touches, is not modelled; every other expression kind of the public
surface is.) -/
inductive TemporalExpression where
  | day (n : Int)
  | weekday (w : Int)
  | month (m : Int)
  | year (y : Int)
  | date (d : CivDate)
  | dayRange (s e : Int)
  | weekdayRange (s e : Int)
  | monthRange (s e : Int)
  | yearRange (s e : Int)
  | or (es : List TemporalExpression)
  | and (es : List TemporalExpression)
  | not (e : TemporalExpression)

/-- `Day.normalize`: a non-negative stored value is returned unchanged; a
negative one is resolved against the evaluated instant's own month as
`timeutil.EndOfMonth(t).Day() + day + 1`. -/
def Day.normalize (d : Int) (t : Instant) : Int :=
  if d < 0 then daysInMonth t.date.year t.date.month + d + 1 else d

mutual

/-- `Includes` for every expression kind, translated clause by clause from
`recurring.go`:
`Day`: `d.normalize(t) == t.Day()`;
`Weekday`: `t.Weekday() == time.Weekday(wd)`;
`Month`: `t.Month() == time.Month(m)`;
`Year`: `t.Year() == int(y)`;
`Date`: the year, month and day fields all agree (time of day ignored);
`DayRangeExpression`: `Day(Start).normalize(t) <= t.Day() <= Day(End).normalize(t)`;
`WeekdayRangeExpression`: `Start <= t.Weekday() <= End`;
`MonthRangeExpression`: `Start <= t.Month() <= End`;
`YearRangeExpression`: `Start <= t.Year() <= End`;
`OrExpression`: some child matches; `AndExpression`: every child matches;
`NotExpression`: the child does not match. -/
def Includes : TemporalExpression → Instant → Bool
  | .day n, t => Day.normalize n t == t.date.day
  | .weekday w, t => dayOfWeek t.date == w
  | .month m, t => t.date.month == m
  | .year y, t => t.date.year == y
  | .date d, t => t.date.year == d.year && t.date.month == d.month
      && t.date.day == d.day
  | .dayRange s e, t =>
      Day.normalize s t ≤ t.date.day && t.date.day ≤ Day.normalize e t
  | .weekdayRange s e, t => s ≤ dayOfWeek t.date && dayOfWeek t.date ≤ e
  | .monthRange s e, t => s ≤ t.date.month && t.date.month ≤ e
  | .yearRange s e, t => s ≤ t.date.year && t.date.year ≤ e
  | .or es, t => anyIncludes es t
  | .and es, t => allIncludes es t
  | .not e, t => !(Includes e t)

/-- The loop of `OrExpression.Includes`: true at the first matching child,
false when the list is exhausted. -/
def anyIncludes : List TemporalExpression → Instant → Bool
  | [], _ => false
  | e :: es, t => Includes e t || anyIncludes es t

/-- The loop of `AndExpression.Includes`: false at the first failing child,
true when the list is exhausted. -/
def allIncludes : List TemporalExpression → Instant → Bool
  | [], _ => true
  | e :: es, t => Includes e t && allIncludes es t

end

/-- The scanning loop of `Next`: test `Includes`, and while it is false
advance by one day.  The Go loop has no bound; the `fuel` argument makes the
possibly-divergent loop a total function, with `none` meaning the loop has not
returned within `fuel` iterations (the Go call terminates with result `r` iff
`scan fuel … = some r` for some fuel). -/
def scan : Nat → Instant → TemporalExpression → Option Instant
  | 0, _, _ => none
  | fuel + 1, t, e => if Includes e t then some t else scan fuel (addDay t) e

/-- `recurring.Next(t, te)`: truncate `t` to the beginning of its day, then
scan forward one day at a time until `Includes` holds. -/
def Next (fuel : Nat) (t : Instant) (e : TemporalExpression) : Option Instant :=
  scan fuel (BeginningOfDay t) e

/-- `recurring.NextN(t, te, n)`: `n` times, `t = Next(t, te); ts[i] = t;
t = t.Add(24h)`.  `none` propagates divergence of an inner `Next`. -/
def NextN (fuel : Nat) (t : Instant) (e : TemporalExpression) :
    Nat → Option (List Instant)
  | 0 => some []
  | n + 1 =>
    match Next fuel t e with
    | none => none
    | some r =>
      match NextN fuel (addDay r) e n with
      | none => none
      | some l => some (r :: l)

/-- Validity of an instant: every Go `time.Time` reports a month in 1..12 and
a day in 1..(length of its month); the embedding's `Instant` type is wider, so
universal statements about "every instant" range over valid ones. -/
def Valid (t : Instant) : Prop :=
  1 ≤ t.date.month ∧ t.date.month ≤ 12 ∧
  1 ≤ t.date.day ∧ t.date.day ≤ daysInMonth t.date.year t.date.month

instance (t : Instant) : Decidable (Valid t) := by
  unfold Valid; infer_instance

/-- Strict order on civil dates (year, then month, then day). -/
def CivDate.lt (a b : CivDate) : Prop :=
  a.year < b.year ∨ (a.year = b.year ∧
    (a.month < b.month ∨ (a.month = b.month ∧ a.day < b.day)))

/-- Strict order on instants: date order, then time-of-day. -/
def Instant.lt (a b : Instant) : Prop :=
  CivDate.lt a.date b.date ∨ (a.date = b.date ∧ a.tod < b.tod)

/-- The Go call `Next(t, te)` terminates. -/
def NextTerminates (t : Instant) (e : TemporalExpression) : Prop :=
  ∃ fuel r, Next fuel t e = some r

/-- The Go call `NextN(t, te, n)` terminates. -/
def NextNTerminates (t : Instant) (e : TemporalExpression) (n : Nat) : Prop :=
  ∃ fuel l, NextN fuel t e n = some l

theorem civDate_lt_trans {a b c : CivDate} (h1 : CivDate.lt a b)
    (h2 : CivDate.lt b c) : CivDate.lt a c := by
  unfold CivDate.lt at *
  omega

theorem instant_lt_trans {a b c : Instant} (h1 : Instant.lt a b)
    (h2 : Instant.lt b c) : Instant.lt a c := by
  unfold Instant.lt at *
  rcases h1 with h1 | ⟨e1, t1⟩ <;> rcases h2 with h2 | ⟨e2, t2⟩
  · exact Or.inl (civDate_lt_trans h1 h2)
  · exact Or.inl (e2 ▸ h1)
  · exact Or.inl (e1 ▸ h2)
  · exact Or.inr ⟨e1.trans e2, t1.trans t2⟩

theorem lt_nextDate (d : CivDate) : CivDate.lt d (nextDate d) := by
  unfold nextDate CivDate.lt
  split
  · exact Or.inr ⟨rfl, Or.inr ⟨rfl, lt_add_one d.day⟩⟩
  · split
    · exact Or.inr ⟨rfl, Or.inl (lt_add_one d.month)⟩
    · exact Or.inl (lt_add_one d.year)

theorem le_iterate_nextDate (k : Nat) (d : CivDate) :
    nextDate^[k] d = d ∨ CivDate.lt d (nextDate^[k] d) := by
  induction k generalizing d with
  | zero => exact Or.inl rfl
  | succ k ih =>
    rw [Function.iterate_succ_apply]
    rcases ih (nextDate d) with h | h
    · rw [h]
      exact Or.inr (lt_nextDate d)
    · exact Or.inr (civDate_lt_trans (lt_nextDate d) h)

theorem iterate_addDay_date (k : Nat) (t : Instant) :
    (addDay^[k] t).date = nextDate^[k] t.date := by
  induction k generalizing t with
  | zero => rfl
  | succ k ih =>
    rw [Function.iterate_succ_apply, Function.iterate_succ_apply]
    exact ih (addDay t)

theorem iterate_addDay_tod (k : Nat) (t : Instant) :
    (addDay^[k] t).tod = t.tod := by
  induction k generalizing t with
  | zero => rfl
  | succ k ih =>
    rw [Function.iterate_succ_apply]
    exact ih (addDay t)

theorem Instant.ext {a b : Instant} (hd : a.date = b.date)
    (ht : a.tod = b.tod) : a = b := by
  cases a
  cases b
  exact congrArg₂ Instant.mk hd ht

theorem le_iterate_addDay (k : Nat) (t : Instant) :
    addDay^[k] t = t ∨ Instant.lt t (addDay^[k] t) := by
  rcases le_iterate_nextDate k t.date with h | h
  · exact Or.inl (Instant.ext (by rw [iterate_addDay_date, h])
      (iterate_addDay_tod k t))
  · exact Or.inr (Or.inl (by rw [iterate_addDay_date]; exact h))

theorem scan_eq_some {fuel : Nat} {s r : Instant} {e : TemporalExpression}
    (h : scan fuel s e = some r) :
    ∃ k, k < fuel ∧ r = addDay^[k] s ∧ Includes e r = true ∧
      ∀ j, j < k → Includes e (addDay^[j] s) = false := by
  induction fuel generalizing s with
  | zero => simp [scan] at h
  | succ n ih =>
    simp only [scan] at h
    cases hi : Includes e s with
    | true =>
      rw [hi] at h
      simp at h
      exact ⟨0, Nat.succ_pos n, h.symm, by simpa [h.symm.symm] using hi,
        fun j hj => absurd hj (by omega)⟩
    | false =>
      rw [hi] at h
      simp at h
      obtain ⟨k, hk, hr, hinc, hfirst⟩ := ih h
      refine ⟨k + 1, by omega, ?_, hinc, ?_⟩
      · rw [Function.iterate_succ_apply]; exact hr
      · intro j hj
        cases j with
        | zero => simpa using hi
        | succ j' =>
          rw [Function.iterate_succ_apply]
          exact hfirst j' (by omega)

theorem scan_none_of_never {e : TemporalExpression}
    (fuel : Nat) (s : Instant)
    (h : ∀ k, Includes e (addDay^[k] s) = false) :
    scan fuel s e = none := by
  induction fuel generalizing s with
  | zero => rfl
  | succ n ih =>
    rw [scan]
    have h0 : Includes e s = false := h 0
    rw [h0]
    simp only [Bool.false_eq_true, if_false]
    exact ih (addDay s) fun k => by
      rw [← Function.iterate_succ_apply]; exact h (k + 1)

theorem scan_or_nil (fuel : Nat) (s : Instant) :
    scan fuel s (.or []) = none :=
  scan_none_of_never fuel s fun _ => rfl

theorem NextN_eq_some {e : TemporalExpression} {fuel : Nat} :
    ∀ (n : Nat) (t : Instant) (l : List Instant),
    NextN fuel t e n = some l →
    l.length = n ∧ l.Pairwise Instant.lt ∧
    ∀ r ∈ l, Includes e r = true ∧ r.tod = 0 ∧
      (r = BeginningOfDay t ∨ Instant.lt (BeginningOfDay t) r) := by
  intro n
  induction n with
  | zero =>
    intro t l h
    simp only [NextN] at h
    obtain rfl : ([] : List Instant) = l := by injection h
    exact ⟨rfl, List.Pairwise.nil, by simp⟩
  | succ n ih =>
    intro t l h
    simp only [NextN] at h
    cases hr : Next fuel t e with
    | none => rw [hr] at h; simp at h
    | some r =>
      rw [hr] at h
      dsimp only at h
      cases hl : NextN fuel (addDay r) e n with
      | none => rw [hl] at h; simp at h
      | some l' =>
        rw [hl] at h
        obtain rfl : r :: l' = l := by injection h
        obtain ⟨hlen, hpw, hmem⟩ := ih (addDay r) l' hl
        obtain ⟨k, hk, hrk, hinc, _⟩ := scan_eq_some hr
        have htod : r.tod = 0 := by rw [hrk, iterate_addDay_tod]; rfl
        have hbod : BeginningOfDay (addDay r) = addDay r :=
          Instant.ext rfl htod.symm
        have hltr : Instant.lt r (addDay r) := Or.inl (lt_nextDate r.date)
        have hall : ∀ r' ∈ l', Instant.lt r r' := by
          intro r' hr'
          rcases (hmem r' hr').2.2 with h' | h'
          · rw [h', hbod]
            exact hltr
          · rw [hbod] at h'
            exact instant_lt_trans hltr h'
        have hge : r = BeginningOfDay t ∨ Instant.lt (BeginningOfDay t) r := by
          rcases le_iterate_addDay k (BeginningOfDay t) with hh | hh
          · left; rw [hrk, hh]
          · right; rw [hrk]; exact hh
        refine ⟨by simp [hlen], List.pairwise_cons.mpr ⟨hall, hpw⟩, ?_⟩
        intro r' hmem'
        rcases List.mem_cons.mp hmem' with rfl | hr'
        · exact ⟨hinc, htod, hge⟩
        · obtain ⟨hi', ht', _⟩ := hmem r' hr'
          refine ⟨hi', ht', Or.inr ?_⟩
          rcases hge with hh | hh
          · rw [← hh]
            exact hall r' hr'
          · exact instant_lt_trans hh (hall r' hr')

/-- C1 (counterexample): the claim says `Next` takes a horizon and returns a
defined "not found" result instead of looping without bound.  The source's
`Next(t, te)` has no horizon parameter: on the empty `Or()` expression, whose
`Includes` is false everywhere, the call never terminates (no amount of fuel
makes the loop return). -/
theorem next_or_empty_never_terminates :
    ¬ NextTerminates ⟨⟨2020, 1, 1⟩, 0⟩ (.or []) := by
  rintro ⟨fuel, r, h⟩
  rw [Next, scan_or_nil] at h
  exact Option.noConfusion h

/-- C1 (amended): whenever the Go loop of `Next(t, te)` returns a value `r`
(modelled as `Next fuel t e = some r` for some fuel), `r` is obtained from the
beginning of the calendar day containing `t` by advancing exactly one calendar
day at a time, `r` satisfies `Includes`, and every earlier candidate fails
`Includes` — i.e. `Next` returns the first matching instant.  There is no
horizon and no "not found" result. -/
theorem next_first_match_of_terminates (t : Instant) (e : TemporalExpression)
    (fuel : Nat) (r : Instant) (h : Next fuel t e = some r) :
    ∃ k, r = addDay^[k] (BeginningOfDay t) ∧ Includes e r = true ∧
      ∀ j, j < k → Includes e (addDay^[j] (BeginningOfDay t)) = false := by
  obtain ⟨k, _, hrk, hinc, hfirst⟩ := scan_eq_some h
  exact ⟨k, hrk, hinc, hfirst⟩

/-- C1 (witness): the amended theorem applied to `Next("2012/12/01", Day(2))`,
which returns `2012/12/02`. -/
theorem next_first_match_witness :
    ∃ k, (⟨⟨2012, 12, 2⟩, 0⟩ : Instant) =
        addDay^[k] (BeginningOfDay ⟨⟨2012, 12, 1⟩, 0⟩) ∧
      Includes (.day 2) ⟨⟨2012, 12, 2⟩, 0⟩ = true ∧
      ∀ j, j < k →
        Includes (.day 2) (addDay^[j] (BeginningOfDay ⟨⟨2012, 12, 1⟩, 0⟩)) =
          false :=
  next_first_match_of_terminates ⟨⟨2012, 12, 1⟩, 0⟩ (.day 2) 3
    ⟨⟨2012, 12, 2⟩, 0⟩ (by decide)

/-- C2 (counterexample): `DayRange(3, -29)` has `Start = 3 > End = -29`, yet
it matches 2018/01/03: in the 31-day month of January the negative end
normalizes to `31 + (-29) + 1 = 3`, so the interval is `[3, 3]`.  A reversed
`DayRange` with a negative endpoint is therefore not always empty. -/
theorem reversed_dayRange_negative_end_matches :
    (-29 : Int) < 3 ∧
      Includes (.dayRange 3 (-29)) ⟨⟨2018, 1, 3⟩, 0⟩ = true := by
  decide

/-- C2 (amended): a range predicate constructed with `Start > End` denotes
the empty set for `WeekdayRange`, `MonthRange` and `YearRange` (whose
endpoints are compared as stored), and for `DayRange` whenever the endpoints
do not straddle zero (`End ≥ 0`, or both negative): per-instant normalization
of a negative `DayRange` endpoint can reorder the endpoints, so a reversed
`DayRange` with `Start ≥ 0 > End` may match. -/
theorem reversed_range_empty (s e : Int) (t : Instant) (h : e < s) :
    Includes (.weekdayRange s e) t = false ∧
    Includes (.monthRange s e) t = false ∧
    Includes (.yearRange s e) t = false ∧
    ((0 ≤ e ∨ s < 0) → Includes (.dayRange s e) t = false) := by
  refine ⟨?_, ?_, ?_, fun hse => ?_⟩
  · simp only [Includes, Bool.and_eq_false_iff, decide_eq_false_iff_not,
      not_le]
    omega
  · simp only [Includes, Bool.and_eq_false_iff, decide_eq_false_iff_not,
      not_le]
    omega
  · simp only [Includes, Bool.and_eq_false_iff, decide_eq_false_iff_not,
      not_le]
    omega
  · simp only [Includes, Day.normalize, Bool.and_eq_false_iff,
      decide_eq_false_iff_not, not_le]
    split_ifs <;> omega

/-- C2 (witness): `WeekdayRange(Friday, Tuesday)` (5 > 2) matches nothing, in
particular not 2018/01/01. -/
theorem reversed_range_empty_witness :
    Includes (.weekdayRange 5 2) ⟨⟨2018, 1, 1⟩, 0⟩ = false :=
  (reversed_range_empty 5 2 ⟨⟨2018, 1, 1⟩, 0⟩ (by decide)).1

/-- C3 (counterexample): the claim says `NextSequence` returns fewer than `n`
results when the horizon is exhausted.  The source's `NextN(t, te, n)` has no
horizon: when an inner `Next` finds no match — here the empty `Or()`, which
matches nothing — `NextN` never returns at all instead of returning a shorter
sequence. -/
theorem nextN_or_empty_never_terminates :
    ¬ NextNTerminates ⟨⟨2020, 1, 1⟩, 0⟩ (.or []) 1 := by
  rintro ⟨fuel, l, h⟩
  simp only [NextN, Next, scan_or_nil] at h
  exact Option.noConfusion h

/-- C3 (amended): whenever the Go call `NextN(t, te, n)` returns (modelled as
`NextN fuel t e n = some l` for some fuel), the result has exactly `n`
elements (never fewer), the elements are strictly increasing, each element
independently satisfies `Includes`, and each subsequent search starts one day
past the previous match (the recursion in `NextN` restarts at
`addDay r`). -/
theorem nextN_increasing_matches (e : TemporalExpression) (fuel n : Nat)
    (t : Instant) (l : List Instant) (h : NextN fuel t e n = some l) :
    l.length = n ∧ l.Pairwise Instant.lt ∧
      ∀ r ∈ l, Includes e r = true := by
  obtain ⟨hlen, hpw, hmem⟩ := NextN_eq_some n t l h
  exact ⟨hlen, hpw, fun r hr => (hmem r hr).1⟩

/-- C3 (witness): the amended theorem applied to
`NextN("2012/12/01", Day(2), 2)`, which returns
`[2012/12/02, 2013/01/02]`. -/
theorem nextN_increasing_matches_witness :
    ([(⟨⟨2012, 12, 2⟩, 0⟩ : Instant), ⟨⟨2013, 1, 2⟩, 0⟩]).length = 2 ∧
      List.Pairwise Instant.lt
        [(⟨⟨2012, 12, 2⟩, 0⟩ : Instant), ⟨⟨2013, 1, 2⟩, 0⟩] ∧
      ∀ r ∈ [(⟨⟨2012, 12, 2⟩, 0⟩ : Instant), ⟨⟨2013, 1, 2⟩, 0⟩],
        Includes (.day 2) r = true :=
  nextN_increasing_matches (.day 2) 40 2 ⟨⟨2012, 12, 1⟩, 0⟩
    [⟨⟨2012, 12, 2⟩, 0⟩, ⟨⟨2013, 1, 2⟩, 0⟩] (by decide)

/-- C4: `Day(n).Includes(t)` holds exactly when the normalized value equals
`t`'s day of month; normalization returns `n` unchanged for `n ≥ 0` and
`lastDayOfMonth(t) + n + 1` for `n < 0`; consequently `Day(-1)` matches
exactly the last day of the month `t` falls in (whatever its length), and
`Day(31)` matches no valid instant of a month shorter than 31 days. -/
theorem day_normalize_spec (n : Int) (t : Instant) :
    (Includes (.day n) t = true ↔ Day.normalize n t = t.date.day) ∧
    Day.normalize n t =
      (if n < 0 then daysInMonth t.date.year t.date.month + n + 1 else n) ∧
    (Includes (.day (-1)) t = true ↔
      t.date.day = daysInMonth t.date.year t.date.month) ∧
    (Valid t → daysInMonth t.date.year t.date.month < 31 →
      Includes (.day 31) t = false) := by
  refine ⟨?_, rfl, ?_, fun hv hlt => ?_⟩
  · simp [Includes]
  · norm_num [Includes, Day.normalize]
    omega
  · obtain ⟨-, -, -, h4⟩ := hv
    norm_num [Includes, Day.normalize]
    omega

/-- C4 (witness): at 2018/02/05 (a 28-day month), `Day(31)` does not match;
the other conjuncts are instantiated at `n = -1`. -/
theorem day_normalize_spec_witness :
    Includes (.day 31) ⟨⟨2018, 2, 5⟩, 0⟩ = false :=
  (day_normalize_spec (-1) ⟨⟨2018, 2, 5⟩, 0⟩).2.2.2 (by decide) (by decide)

/-- C5: `DayRange(0, -1)` matches every valid instant: the lower endpoint
normalizes to 0, below every 1-based day of month, and the upper endpoint
normalizes to the length of the instant's own month. -/
theorem dayRange_zero_neg_one_whole_month (t : Instant) (h : Valid t) :
    Includes (.dayRange 0 (-1)) t = true := by
  obtain ⟨-, -, h3, h4⟩ := h
  norm_num [Includes, Day.normalize]
  omega

/-- C5 (witness): 2018/02/28 lies in `DayRange(0, -1)`. -/
theorem dayRange_zero_neg_one_whole_month_witness :
    Includes (.dayRange 0 (-1)) ⟨⟨2018, 2, 28⟩, 0⟩ = true :=
  dayRange_zero_neg_one_whole_month ⟨⟨2018, 2, 28⟩, 0⟩ (by decide)

/-- C6: the concrete occurrence-search scenarios of the spec:
`Next("2012/12/02", Day(1)) = 2013/01/01` (rolling into the next month and
year) and `Next("2018/09/30", Day(-2)) = 2018/10/30`, with `Day(-2)`
normalizing to day 29 in September and day 30 in October. -/
theorem next_concrete_examples :
    Next 31 ⟨⟨2012, 12, 2⟩, 0⟩ (.day 1) = some ⟨⟨2013, 1, 1⟩, 0⟩ ∧
    Next 31 ⟨⟨2018, 9, 30⟩, 0⟩ (.day (-2)) = some ⟨⟨2018, 10, 30⟩, 0⟩ ∧
    Day.normalize (-2) ⟨⟨2018, 9, 30⟩, 0⟩ = 29 ∧
    Day.normalize (-2) ⟨⟨2018, 10, 1⟩, 0⟩ = 30 := by
  decide

/-- C7: double negation — `Not(Not(e)).Includes(t)` equals `e.Includes(t)`
for every expression and instant. -/
theorem not_not_includes (e : TemporalExpression) (t : Instant) :
    Includes (.not (.not e)) t = Includes e t := by
  simp [Includes]

/-- C8: the empty combinators — `Or().Includes(t)` is false and
`And().Includes(t)` is true, for every instant. -/
theorem empty_or_and_includes (t : Instant) :
    Includes (.or []) t = false ∧ Includes (.and []) t = true := by
  simp [Includes, anyIncludes, allIncludes]

/-- C9: `Day(0)` never matches a valid instant: 0 is non-negative so it
normalizes to itself, and every day of month is at least 1. -/
theorem day_zero_empty (t : Instant) (h : Valid t) :
    Includes (.day 0) t = false := by
  obtain ⟨-, -, h3, -⟩ := h
  norm_num [Includes, Day.normalize]
  omega

/-- C9 (witness): `Day(0)` does not match 2018/10/02. -/
theorem day_zero_empty_witness :
    Includes (.day 0) ⟨⟨2018, 10, 2⟩, 0⟩ = false :=
  day_zero_empty ⟨⟨2018, 10, 2⟩, 0⟩ (by decide)

/-- C10: `Next` is idempotent on its own result: if `Next(t, te)` returns
`r`, then `Next(r, te)` returns `r` — `r` is a beginning-of-day instant that
satisfies `Includes`, so truncating it changes nothing and the scan stops at
its first candidate (any positive fuel suffices). -/
theorem next_idempotent (t : Instant) (e : TemporalExpression) (fuel : Nat)
    (r : Instant) (h : Next fuel t e = some r) (f : Nat) (hf : 1 ≤ f) :
    Next f r e = some r := by
  obtain ⟨k, -, hrk, hinc, -⟩ := scan_eq_some h
  have htod : r.tod = 0 := by rw [hrk, iterate_addDay_tod]; rfl
  have hbod : BeginningOfDay r = r := Instant.ext rfl htod.symm
  obtain ⟨f', rfl⟩ : ∃ f', f = f' + 1 := ⟨f - 1, by omega⟩
  rw [Next, hbod]
  simp only [scan]
  rw [hinc]
  simp

/-- C10 (witness): `Next("2012/12/01", Day(2))` returns 2012/12/02, and
`Next` applied again to that result returns it unchanged. -/
theorem next_idempotent_witness :
    Next 1 ⟨⟨2012, 12, 2⟩, 0⟩ (.day 2) = some ⟨⟨2012, 12, 2⟩, 0⟩ :=
  next_idempotent ⟨⟨2012, 12, 1⟩, 0⟩ (.day 2) 3 ⟨⟨2012, 12, 2⟩, 0⟩
    (by decide) 1 (by decide)

end Recurring
